import Mathlib

/-!
Verification development for the `multiple_file_parser` Go library.

The Go sources are shallowly embedded below:
* Go `rune` values are modelled as `Char`; a Go string viewed through
  `[]rune(s)` is modelled as `List Char`, and `String` wraps such a list.
* Byte payloads of the raw-text parser are modelled as `List Nat`
  (one entry per byte); Go `string(data)` keeps the bytes verbatim, so the
  resulting "string" is the same `List Nat`.
* `(T, error)` return values are modelled as `Except String T` carrying the
  `fmt.Errorf` message (structured messages are built by dedicated helpers).
* A `strings.Builder` accumulating `WriteString` calls is modelled by
  sequential `String` concatenation.
-/

/-! ## Text sanitizer (pdf.go: sanitizeText and helpers) -/

/-- Go `isJapaneseChar`: Hiragana U+3040–U+309F, Katakana U+30A0–U+30FF,
CJK Unified Ideographs U+4E00–U+9FAF. -/
def isJapaneseChar (r : Char) : Bool :=
  decide ((0x3040 ≤ r.toNat ∧ r.toNat ≤ 0x309F) ∨
          (0x30A0 ≤ r.toNat ∧ r.toNat ≤ 0x30FF) ∨
          (0x4E00 ≤ r.toNat ∧ r.toNat ≤ 0x9FAF))

/-- Go `strings.ReplaceAll(text, "�", "")`: the pattern is the single rune
U+FFFD, so the call removes every replacement character. -/
def removeReplacementChars (s : List Char) : List Char :=
  s.filter (fun c => c ≠ '�')

/-- Body of Go `convertFullWidthToHalfWidth`: a rune in U+FF01–U+FF5E is
mapped to `r - 0xFF00 + 0x0020`, all other runes are kept. -/
def foldFullWidthChar (r : Char) : Char :=
  if 0xFF01 ≤ r.toNat ∧ r.toNat ≤ 0xFF5E then Char.ofNat (r.toNat - 0xFF00 + 0x20)
  else r

/-- Go `convertFullWidthToHalfWidth`. -/
def convertFullWidthToHalfWidth (s : List Char) : List Char :=
  s.map foldFullWidthChar

/-- Head test used by `removeJapaneseSpaces`: `i < len(runes)-1 &&
isJapaneseChar(runes[i+1])` seen from position `i`. -/
def headIsJapanese : List Char → Bool
  | [] => false
  | n :: _ => isJapaneseChar n

/-- Loop of Go `removeJapaneseSpaces`; `pj` records whether the previous rune
of the ORIGINAL array (`i > 0 && isJapaneseChar(runes[i-1])`) is Japanese. -/
def removeJpSpacesGo (pj : Bool) : List Char → List Char
  | [] => []
  | c :: rest =>
    if c == ' ' && pj && headIsJapanese rest then removeJpSpacesGo (isJapaneseChar c) rest
    else c :: removeJpSpacesGo (isJapaneseChar c) rest

/-- Go `removeJapaneseSpaces`: a plain space whose two original neighbours are
both Japanese is dropped. -/
def removeJapaneseSpaces (s : List Char) : List Char :=
  removeJpSpacesGo false s

/-- Go `strings.ReplaceAll(text, "\t", " ")`. -/
def replaceTabs (s : List Char) : List Char :=
  s.map (fun c => if c = '\t' then ' ' else c)

/-- Go `strings.ReplaceAll(text, "\r\n", "\n")`: left-to-right,
non-overlapping. -/
def replaceCRLF : List Char → List Char
  | [] => []
  | [c] => [c]
  | c :: d :: rest =>
    if c = '\r' ∧ d = '\n' then '\n' :: replaceCRLF rest
    else c :: replaceCRLF (d :: rest)

/-- Go `strings.ReplaceAll(text, "\r", "\n")`. -/
def replaceCR (s : List Char) : List Char :=
  s.map (fun c => if c = '\r' then '\n' else c)

/-- Go `strings.Contains(text, "  ")` (two spaces). -/
def hasDoubleSpace : List Char → Bool
  | [] => false
  | [_] => false
  | c :: d :: rest => (c == ' ' && d == ' ') || hasDoubleSpace (d :: rest)

/-- One round of Go `strings.ReplaceAll(text, "  ", " ")`: left-to-right,
non-overlapping replacement of two spaces by one. -/
def replaceDoubleSpace : List Char → List Char
  | [] => []
  | [c] => [c]
  | c :: d :: rest =>
    if c = ' ' ∧ d = ' ' then ' ' :: replaceDoubleSpace rest
    else c :: replaceDoubleSpace (d :: rest)

theorem replaceDoubleSpace_length_le : ∀ s : List Char, (replaceDoubleSpace s).length ≤ s.length
  | [] => by simp [replaceDoubleSpace]
  | [c] => by simp [replaceDoubleSpace]
  | c :: d :: rest => by
    by_cases h : c = ' ' ∧ d = ' '
    · have ih := replaceDoubleSpace_length_le rest
      simp only [replaceDoubleSpace, if_pos h, List.length_cons]
      omega
    · have ih := replaceDoubleSpace_length_le (d :: rest)
      simp only [replaceDoubleSpace, if_neg h, List.length_cons]
      simp only [List.length_cons] at ih
      omega

theorem replaceDoubleSpace_length_lt : ∀ s : List Char, hasDoubleSpace s = true →
    (replaceDoubleSpace s).length < s.length
  | [], h => by simp [hasDoubleSpace] at h
  | [c], h => by simp [hasDoubleSpace] at h
  | c :: d :: rest, h => by
    by_cases hcd : c = ' ' ∧ d = ' '
    · have le := replaceDoubleSpace_length_le rest
      simp only [replaceDoubleSpace, if_pos hcd, List.length_cons]
      omega
    · have hd : hasDoubleSpace (d :: rest) = true := by
        simp only [hasDoubleSpace, Bool.or_eq_true, Bool.and_eq_true, beq_iff_eq] at h
        rcases h with h | h
        · exact absurd ⟨h.1, h.2⟩ hcd
        · exact h
      have ih := replaceDoubleSpace_length_lt (d :: rest) hd
      simp only [replaceDoubleSpace, if_neg hcd, List.length_cons]
      simp only [List.length_cons] at ih ⊢
      omega

/-- Go loop `for strings.Contains(text, "  ") { text = strings.ReplaceAll(text, "  ", " ") }`. -/
def collapseSpaces (s : List Char) : List Char :=
  if h : hasDoubleSpace s = true then collapseSpaces (replaceDoubleSpace s)
  else s
termination_by s.length
decreasing_by exact replaceDoubleSpace_length_lt s h

/-- White-space test of Go `unicode.IsSpace` (the Unicode White_Space
property), used by `strings.TrimSpace`. -/
def isGoSpace (c : Char) : Bool :=
  decide ((0x9 ≤ c.toNat ∧ c.toNat ≤ 0xD) ∨ c.toNat = 0x20 ∨ c.toNat = 0x85 ∨
          c.toNat = 0xA0 ∨ c.toNat = 0x1680 ∨ (0x2000 ≤ c.toNat ∧ c.toNat ≤ 0x200A) ∨
          c.toNat = 0x2028 ∨ c.toNat = 0x2029 ∨ c.toNat = 0x202F ∨
          c.toNat = 0x205F ∨ c.toNat = 0x3000)

/-- Go `strings.TrimSpace`: drop leading and trailing White_Space runes. -/
def trimSpaceChars (s : List Char) : List Char :=
  (((s.dropWhile isGoSpace).reverse).dropWhile isGoSpace).reverse

/-- Go `sanitizeText` (pdf.go), on the rune sequence: the six steps in source
order. -/
def sanitizeChars (s : List Char) : List Char :=
  trimSpaceChars (collapseSpaces (replaceCR (replaceCRLF (replaceTabs
    (removeJapaneseSpaces (convertFullWidthToHalfWidth (removeReplacementChars s)))))))

/-- Go `sanitizeText` on `String`. -/
def sanitizeText (s : String) : String :=
  ⟨sanitizeChars s.data⟩

theorem collapseSpaces_eq_self {s : List Char} (h : hasDoubleSpace s = false) :
    collapseSpaces s = s := by
  rw [collapseSpaces]
  simp [h]

theorem collapseSpaces_step {s : List Char} (h : hasDoubleSpace s = true) :
    collapseSpaces s = collapseSpaces (replaceDoubleSpace s) := by
  rw [collapseSpaces]
  simp [h]

/-- Helper for evaluating `sanitizeChars` on concrete inputs whose collapse
loop terminates immediately. -/
theorem sanitizeChars_eval {s t : List Char}
    (h1 : replaceCR (replaceCRLF (replaceTabs (removeJapaneseSpaces
            (convertFullWidthToHalfWidth (removeReplacementChars s))))) = t)
    (h2 : hasDoubleSpace t = false) :
    sanitizeChars s = trimSpaceChars t := by
  unfold sanitizeChars
  rw [h1, collapseSpaces_eq_self h2]

/-- Helper for evaluating `sanitizeChars` on concrete inputs whose collapse
loop runs exactly one replacement round. -/
theorem sanitizeChars_eval_one {s t u : List Char}
    (h1 : replaceCR (replaceCRLF (replaceTabs (removeJapaneseSpaces
            (convertFullWidthToHalfWidth (removeReplacementChars s))))) = t)
    (h2 : hasDoubleSpace t = true)
    (h3 : replaceDoubleSpace t = u)
    (h4 : hasDoubleSpace u = false) :
    sanitizeChars s = trimSpaceChars u := by
  unfold sanitizeChars
  rw [h1, collapseSpaces_step h2, h3, collapseSpaces_eq_self h4]

/-! ## Raw-text parser (text.go: TextParser) -/

/-- The 100 MiB ceiling `maxSize = 100 * 1024 * 1024` of text.go. -/
def maxTextSize : Nat := 100 * 1024 * 1024

/-- The `fmt.Errorf("file size %d exceeds maximum allowed size of %d bytes", ...)`
message. -/
def sizeErrMsg (n limit : Nat) : String :=
  "file size " ++ toString n ++ " exceeds maximum allowed size of " ++
    toString limit ++ " bytes"

/-- Go `TextParser.ParseFromBytes`: reject oversized input, otherwise return
`string(data)` — the input bytes verbatim. -/
def textParseFromBytes (data : List Nat) : Except String (List Nat) :=
  if data.length > maxTextSize then .error (sizeErrMsg data.length maxTextSize)
  else .ok data

/-- Go `TextParser.ParseFromReader` over a `bytes.Reader`-style backend holding
`data`: reject oversized `size`, then `ReadAt` fills a `size`-byte buffer with
the first `min size (length data)` bytes (`io.EOF` is tolerated) and
`buffer[:n]` is returned. -/
def textParseFromReaderAt (data : List Nat) (size : Nat) : Except String (List Nat) :=
  if size > maxTextSize then .error (sizeErrMsg size maxTextSize)
  else .ok (data.take size)

/-! ## Shared string helpers (Go strings package) -/

/-- Sequential `strings.Builder` accumulation / concatenation of blocks. -/
def concatStrs : List String → String
  | [] => ""
  | s :: rest => s ++ concatStrs rest

/-- Go `strings.Join(elems, sep)`. -/
def goJoin (sep : String) : List String → String
  | [] => ""
  | [s] => s
  | s :: rest => s ++ sep ++ goJoin sep rest

/-- List-level prefix test (Go `strings.HasPrefix` on rune lists). -/
def listHasPrefixChars : List Char → List Char → Bool
  | [], _ => true
  | _ :: _, [] => false
  | p :: ps, c :: cs => p == c && listHasPrefixChars ps cs

/-- List-level substring test (Go `strings.Contains` on rune lists). -/
def listHasSubChars (pat : List Char) : List Char → Bool
  | [] => listHasPrefixChars pat []
  | c :: rest => listHasPrefixChars pat (c :: rest) || listHasSubChars pat rest

/-- Go `strings.HasPrefix`. -/
def goHasPrefix (s pre : String) : Bool :=
  listHasPrefixChars pre.data s.data

/-- Go `strings.HasSuffix`. -/
def goHasSuffix (s suf : String) : Bool :=
  listHasPrefixChars suf.data.reverse s.data.reverse

/-- Go `strings.Contains`. -/
def goContains (s sub : String) : Bool :=
  listHasSubChars sub.data s.data

/-- Go `strings.TrimSpace` on `String`. -/
def goTrimSpace (s : String) : String :=
  ⟨trimSpaceChars s.data⟩

/-! ## Word-processing schema (shared by docx.go and the streaming DOCX parser) -/

/-- `DocxText` (`xml:",chardata"`). -/
structure DocxText where
  content : String
deriving DecidableEq

/-- `DocxRun` (`xml:"t"`). -/
structure DocxRun where
  text : DocxText
deriving DecidableEq

/-- `DocxParagraph` (`xml:"r"`). -/
structure DocxParagraph where
  runs : List DocxRun
deriving DecidableEq

/-- `DocxBody` (`xml:"p"`), the unmarshal-based docx.go schema: only
paragraphs are decoded at body level. -/
structure DocxBody where
  paragraphs : List DocxParagraph
deriving DecidableEq

/-- `DocxDocument` (`xml:"body"`). -/
structure DocxDocument where
  body : DocxBody
deriving DecidableEq

/-- Paragraph serialization of docx.go `extractTextFromDocument`: runs with
non-empty text are appended to a builder. -/
def docxParagraphText (p : DocxParagraph) : String :=
  p.runs.foldl (fun acc run => if run.text.content ≠ "" then acc ++ run.text.content else acc) ""

/-- docx.go `extractTextFromDocument`: one `result` entry per body paragraph
(empty paragraphs contribute `""`), joined with `"\n"`. -/
def extractTextFromDocument (d : DocxDocument) : String :=
  goJoin "\n" (d.body.paragraphs.map (fun par =>
    let t := docxParagraphText par
    if t.length > 0 then t else ""))

/-- `DocxTableCell` (`xml:"p"`) of the streaming DOCX parser. -/
structure DocxTableCell where
  paragraphs : List DocxParagraph
deriving DecidableEq

/-- `DocxTableRow` (`xml:"tc"`). -/
structure DocxTableRow where
  cells : List DocxTableCell
deriving DecidableEq

/-- `DocxTable` (`xml:"tr"`). -/
structure DocxTable where
  rows : List DocxTableRow
deriving DecidableEq

/-- `extractTextFromParagraph` of the streaming DOCX parser: every run's text
is appended unconditionally. -/
def extractTextFromParagraphStream (p : DocxParagraph) : String :=
  concatStrs (p.runs.map (fun run => run.text.content))

/-- `extractTextFromTable` of the streaming DOCX parser: a row's non-empty
cell-paragraph texts are tab-joined; rows with no non-empty text are omitted. -/
def extractTextFromTable (tbl : DocxTable) : String :=
  concatStrs (tbl.rows.filterMap (fun row =>
    let rowTexts := row.cells.foldl (fun acc cell =>
      acc ++ cell.paragraphs.filterMap (fun par =>
        let t := extractTextFromParagraphStream par
        if t ≠ "" then some t else none)) []
    if rowTexts.length > 0 then some (goJoin "\t" rowTexts ++ "\n") else none))

/-- A body-level element met by the streaming DOCX parser's token walk inside
`w:body`: a `p` element or a `tbl` element (any other element is skipped by
the decoder and never reaches the assembler). -/
inductive DocxBodyElem where
  | par (p : DocxParagraph)
  | tbl (t : DocxTable)
deriving DecidableEq

/-- Body assembly of the streaming `DOCXParser.ParseFromReader`: a paragraph
writes `text + "\n"` only when its text is non-empty; a table writes
`extractTextFromTable` inline. -/
def docxStreamBody (body : List DocxBodyElem) : String :=
  concatStrs (body.map (fun e =>
    match e with
    | .par p =>
      let text := extractTextFromParagraphStream p
      if text ≠ "" then text ++ "\n" else ""
    | .tbl t => extractTextFromTable t))

/-! ## Presentation parser (pptx.go) -/

/-- `TextRun` (`xml:"t"`). -/
structure PptxTextRun where
  t : String
deriving DecidableEq

/-- `Paragraph` (`xml:"r"`). -/
structure PptxParagraph where
  runs : List PptxTextRun
deriving DecidableEq

/-- `TextBody` (`xml:"p"`). -/
structure PptxTextBody where
  paragraphs : List PptxParagraph
deriving DecidableEq

/-- `Shape` (`xml:"txBody"`). -/
structure PptxShape where
  txBody : PptxTextBody
deriving DecidableEq

/-- `SlideData` (`xml:"spTree>sp"`). -/
structure PptxSlideData where
  shapes : List PptxShape
deriving DecidableEq

/-- `Slide` (`xml:"cSld"`). -/
structure Slide where
  cSld : PptxSlideData
deriving DecidableEq

/-- `extractTextFromSlide`: per shape, per paragraph, concatenate non-empty
run texts; keep non-empty paragraph texts; join with `"\n"`. -/
def extractTextFromSlide (slide : Slide) : String :=
  goJoin "\n" (slide.cSld.shapes.foldl (fun res shape =>
    res ++ shape.txBody.paragraphs.filterMap (fun par =>
      let t := par.runs.foldl (fun acc r => if r.t ≠ "" then acc ++ r.t else acc) ""
      if t.length > 0 then some t else none)) [])

/-- An archive entry seen by `PPTXParser.ParseFromReader`: its name, and the
outcome of `Open`/`ReadAll`/`xml.Unmarshal` on its content (`none` models any
of the three failing, which the code absorbs with `continue`). -/
structure PptxEntry where
  name : String
  slide : Option Slide
deriving DecidableEq

/-- The slide-file filter of `PPTXParser.ParseFromReader`. -/
def isSlideFile (name : String) : Bool :=
  goHasPrefix name "ppt/slides/slide" && goHasSuffix name ".xml" &&
    !(goContains name "Layout") && !(goContains name "Master")

/-- One slide section written by `PPTXParser.ParseFromReader`: the header with
the encounter-order number, the slide text or the placeholder, and the
separating blank line. -/
def mkSlideSection (num : Nat) (sl : Slide) : String :=
  "## Slide " ++ toString num ++ "\n" ++
    (let extractedText := extractTextFromSlide sl
     if extractedText.length > 0 then extractedText else "(No text found)") ++ "\n\n"

/-- Entry loop of `PPTXParser.ParseFromReader`, carrying `slideNum`. Skipped
or unreadable entries do not advance `slideNum`. -/
def pptxGo (num : Nat) : List PptxEntry → String
  | [] => ""
  | e :: rest =>
    if isSlideFile e.name then
      match e.slide with
      | none => pptxGo num rest
      | some sl => mkSlideSection num sl ++ pptxGo (num + 1) rest
    else pptxGo num rest

/-- `PPTXParser.ParseFromReader` after `zip.NewReader` succeeded: the loop
result is always returned with a nil error. -/
def pptxParseFromReader (entries : List PptxEntry) : Except String String :=
  .ok (pptxGo 1 entries)

/-! ## Spreadsheet parser (excel.go) -/

/-- One sheet as seen through excelize: its name and, when `f.Rows` succeeds,
its row iterator; each row is `none` when `rows.Columns()` fails, otherwise
the cell values. -/
structure SheetData where
  name : String
  rows : Option (List (Option (List String)))
deriving DecidableEq

/-- Row loop of `ExcelParser.extractSheets` for one sheet: failed rows are
skipped, each good row contributes `strings.Join(row, " | ") + "\n"`. -/
def sheetRowsText (rows : List (Option (List String))) : String :=
  concatStrs (rows.filterMap (fun r =>
    match r with
    | none => none
    | some row => some (goJoin " | " row ++ "\n")))

/-- The `results` slice built by `ExcelParser.extractSheets`: sheets whose
`f.Rows` call fails are skipped, the rest contribute `(name, content)` in
workbook order. -/
def excelResults (wb : List SheetData) : List (String × String) :=
  wb.filterMap (fun sh => sh.rows.map (fun rows => (sh.name, sheetRowsText rows)))

/-- `ExcelParser.extractSheets`: fails with `"no data found"` exactly when the
`results` slice is empty. -/
def extractSheets (wb : List SheetData) : Except String (List (String × String)) :=
  if excelResults wb = [] then .error "no data found"
  else .ok (excelResults wb)

/-- One sheet block written by `ExcelParser.ParseFromReader`. -/
def sheetBlock (sc : String × String) : String :=
  "# Sheet " ++ sc.1 ++ "\n" ++ sc.2 ++ "\n---\n\n"

/-- `ExcelParser.ParseFromReader` after `excelize.OpenReader` succeeded. -/
def excelParseFromReader (wb : List SheetData) : Except String String :=
  match extractSheets wb with
  | .error e => .error e
  | .ok sheets =>
    let buf := concatStrs (sheets.map sheetBlock)
    if buf.length = 0 then .error "no data found" else .ok buf

/-- One `result[sheet.name] = sheet.content` write into the Go map. The map
is modelled by its only order-free observation, key lookup: a write makes the
key return the new value and leaves every other key unchanged. -/
def goMapInsert (m : String → Option String) (k v : String) (q : String) : Option String :=
  if q = k then some v else m q

/-- `ExcelParser.ParseWithPages` after `excelize.OpenReader` succeeded. The
returned Go `map[string]string` is unordered (iteration order is unspecified),
so it is modelled as the lookup function produced by performing the
`result[sheet.name] = sheet.content` writes on the empty map — a value that
carries no trace of the insertion sequence. -/
def excelParseWithPages (wb : List SheetData) : Except String (String → Option String) :=
  match extractSheets wb with
  | .error e => .error e
  | .ok sheets => .ok (sheets.foldl (fun m sc => goMapInsert m sc.1 sc.2) (fun _ => none))

/-! ## PDF parser (pdf.go) -/

/-- Non-empty trimmed fragments collected from one PDF page's
`page.Content().Text`. -/
def pdfPageTexts (texts : List String) : List String :=
  texts.filterMap (fun t =>
    let cleanedText := goTrimSpace t
    if cleanedText ≠ "" then some cleanedText else none)

/-- One page section written by `PDFParser.ParseFromReader` for a non-null
page `i`: the header, the sanitized space-joined fragments (or nothing when no
fragment survives trimming), and the closing blank line. -/
def pdfPageSection (i : Nat) (texts : List String) : String :=
  "## Page " ++ toString i ++ "\n\n" ++
    (let pageTexts := pdfPageTexts texts
     if pageTexts.length > 0 then sanitizeText (goJoin " " pageTexts) else "") ++
    "\n\n"

/-- Page loop of `PDFParser.ParseFromReader`: page `i` is `none` when
`page.V.IsNull()` (skipped entirely, nothing written), otherwise its list of
text fragments; the loop index advances on every page. -/
def pdfGo (i : Nat) : List (Option (List String)) → String
  | [] => ""
  | pg :: rest =>
    match pg with
    | none => pdfGo (i + 1) rest
    | some texts => pdfPageSection i texts ++ pdfGo (i + 1) rest

/-- `PDFParser.ParseFromReader` after `pdf.NewReader` succeeded: pages are
visited in order `1..NumPage()`. -/
def pdfParseFromReader (pages : List (Option (List String))) : Except String String :=
  .ok (pdfGo 1 pages)

/-! ## General helper lemmas -/

theorem toNat_ofNat_valid {n : Nat} (h : n < 0xd800) : (Char.ofNat n).toNat = n := by
  rw [Char.ofNat, dif_pos (Or.inl h)]
  rfl

theorem list_map_id_of {α : Type} (f : α → α) :
    ∀ l : List α, (∀ c ∈ l, f c = c) → l.map f = l
  | [], _ => rfl
  | c :: rest, h => by
    simp only [List.map_cons, h c (List.mem_cons_self c rest),
      list_map_id_of f rest (fun d hd => h d (List.mem_cons_of_mem c hd))]

/-- The clean spec of a word-processing paragraph's text: the concatenation of
its runs' texts in order (spec §3 invariant). -/
def docxParagraphFullText (p : DocxParagraph) : String :=
  concatStrs (p.runs.map (fun r => r.text.content))

theorem concatStrs_cons (s : String) (l : List String) :
    concatStrs (s :: l) = s ++ concatStrs l := rfl

theorem docx_foldl_skip_empty : ∀ (runs : List DocxRun) (acc : String),
    runs.foldl (fun a run => if run.text.content ≠ "" then a ++ run.text.content else a) acc
      = acc ++ concatStrs (runs.map fun r => r.text.content)
  | [], acc => by simp [concatStrs]
  | r :: rest, acc => by
    rw [List.foldl_cons]
    by_cases h : r.text.content = ""
    · rw [if_neg (by simp [h]), docx_foldl_skip_empty rest acc, List.map_cons,
        concatStrs_cons, h, String.empty_append]
    · rw [if_pos h, docx_foldl_skip_empty rest (acc ++ r.text.content), List.map_cons,
        concatStrs_cons, String.append_assoc]

theorem docxParagraphText_eq_full (p : DocxParagraph) :
    docxParagraphText p = docxParagraphFullText p := by
  unfold docxParagraphText docxParagraphFullText
  rw [docx_foldl_skip_empty, String.empty_append]

theorem string_eq_empty_of_length_eq_zero {s : String} (h : s.length = 0) : s = "" := by
  cases s with
  | mk data =>
    cases data with
    | nil => rfl
    | cons c rest => simp [String.length, List.length] at h

/-! ## Claim C2 -/

/-- C2 counterexample: the streaming `DOCXParser.ParseFromReader` (part_001)
drops a paragraph whose run-concatenation is empty. A body with paragraphs
"Hello" and "" produces the same output as the body with only "Hello", namely
`"Hello\n"`, which contains one paragraph line, not two. -/
theorem docx_stream_drops_empty_paragraph :
    docxStreamBody [.par ⟨[⟨⟨"Hello"⟩⟩]⟩, .par ⟨[]⟩] = "Hello\n" ∧
    docxStreamBody [.par ⟨[⟨⟨"Hello"⟩⟩]⟩] = "Hello\n" ∧
    ((docxStreamBody [.par ⟨[⟨⟨"Hello"⟩⟩]⟩, .par ⟨[]⟩]).data.count '\n' = 1 ∧
      [DocxBodyElem.par ⟨[⟨⟨"Hello"⟩⟩]⟩, .par ⟨[]⟩].length = 2) := by
  exact ⟨rfl, rfl, by decide, rfl⟩

/-- C2 (amended): the unmarshal-based extractor `extractTextFromDocument`
(docx.go) preserves empty paragraphs: its output is the newline-join of
exactly one entry per body paragraph, where each entry is the full
concatenation of the paragraph's run texts (so an all-empty paragraph
contributes an empty line and the entry count equals the paragraph count). -/
theorem docx_document_preserves_paragraph_count (d : DocxDocument) :
    extractTextFromDocument d
      = goJoin "\n" (d.body.paragraphs.map docxParagraphFullText) ∧
    (d.body.paragraphs.map docxParagraphFullText).length = d.body.paragraphs.length := by
  constructor
  · unfold extractTextFromDocument
    congr 1
    apply List.map_congr_left
    intro par _
    rw [docxParagraphText_eq_full]
    by_cases h : (docxParagraphFullText par).length > 0
    · simp [h]
    · have h0 : (docxParagraphFullText par).length = 0 := by omega
      simp [h, string_eq_empty_of_length_eq_zero h0]
  · exact List.length_map _ _

/-! ## Claims C7 and C10 -/

/-- C7: the raw-text parser enforces the 100 MiB cap with a strict boundary,
for both the bytes-based and the reader-based entry points: length (resp.
declared size) at most `maxTextSize` succeeds, anything larger fails with the
size-exceeded error before any processing. -/
theorem text_size_cap_boundary (data : List Nat) (size : Nat) :
    (data.length ≤ maxTextSize → textParseFromBytes data = .ok data) ∧
    (data.length > maxTextSize →
      textParseFromBytes data = .error (sizeErrMsg data.length maxTextSize)) ∧
    (size ≤ maxTextSize → textParseFromReaderAt data size = .ok (data.take size)) ∧
    (size > maxTextSize →
      textParseFromReaderAt data size = .error (sizeErrMsg size maxTextSize)) := by
  refine ⟨fun h => ?_, fun h => ?_, fun h => ?_, fun h => ?_⟩ <;>
    simp only [textParseFromBytes, textParseFromReaderAt] <;>
    [rw [if_neg (by omega)]; rw [if_pos (by omega)]; rw [if_neg (by omega)];
      rw [if_pos (by omega)]]

/-- C7 witness: exactly 100 MiB (104857600 bytes) succeeds and
100 MiB + 1 fails, on both entry points. -/
theorem text_size_cap_boundary_witness :
    textParseFromBytes (List.replicate 104857600 0) = .ok (List.replicate 104857600 0) ∧
    textParseFromBytes (List.replicate 104857601 0) = .error (sizeErrMsg 104857601 maxTextSize) ∧
    textParseFromReaderAt [] 104857600 = .ok [] ∧
    textParseFromReaderAt [] 104857601 = .error (sizeErrMsg 104857601 maxTextSize) := by
  have hlen1 : (List.replicate 104857600 (0 : Nat)).length = 104857600 :=
    List.length_replicate _ _
  have hlen2 : (List.replicate 104857601 (0 : Nat)).length = 104857601 :=
    List.length_replicate _ _
  have hmax : maxTextSize = 104857600 := by norm_num [maxTextSize]
  have hb := text_size_cap_boundary (List.replicate 104857600 0) 104857600
  have hc := text_size_cap_boundary (List.replicate 104857601 0) 104857601
  have he := text_size_cap_boundary ([] : List Nat) 104857600
  have hf := text_size_cap_boundary ([] : List Nat) 104857601
  refine ⟨hb.1 (by rw [hlen1, hmax]), ?_, ?_, hf.2.2.2 (by rw [hmax]; omega)⟩
  · have h := hc.2.1 (by rw [hlen2, hmax]; omega)
    rw [hlen2] at h
    exact h
  · have h := he.2.2.1 (by rw [hmax])
    rw [List.take_nil] at h
    exact h

/-- C10: on admissible input (length at most the 100 MiB cap) the raw-text
parser is the identity: it returns exactly the input bytes as the result
string, with no transformation. -/
theorem text_parse_identity (data : List Nat) (h : data.length ≤ maxTextSize) :
    textParseFromBytes data = .ok data := by
  simp only [textParseFromBytes]
  rw [if_neg (by omega)]

/-- C10 witness at a concrete input. -/
theorem text_parse_identity_witness :
    textParseFromBytes [72, 101, 108, 108, 111] = .ok [72, 101, 108, 108, 111] :=
  text_parse_identity [72, 101, 108, 108, 111] (by decide)

/-! ## Claim C3 -/

/-- Surviving sheet names in workbook order: those whose `f.Rows` call
succeeds. -/
def excelSheetNames (wb : List SheetData) : List String :=
  wb.filterMap (fun sh => sh.rows.map (fun _ => sh.name))

theorem excelResults_names (wb : List SheetData) :
    (excelResults wb).map Prod.fst = excelSheetNames wb := by
  unfold excelResults excelSheetNames
  rw [List.map_filterMap]
  apply List.filterMap_congr
  intro sh _
  cases sh.rows <;> rfl

theorem excelResults_eq_nil_iff (wb : List SheetData) :
    excelResults wb = [] ↔ wb.all (fun sh => sh.rows.isNone) = true := by
  unfold excelResults
  rw [List.filterMap_eq_nil_iff, List.all_eq_true]
  constructor
  · intro h sh hm
    have := h sh hm
    rw [Option.map_eq_none'] at this
    simp [this]
  · intro h sh hm
    have := h sh hm
    rw [Option.map_eq_none']
    simpa using this

theorem sheetBlock_length_pos (sc : String × String) : 0 < (sheetBlock sc).length := by
  unfold sheetBlock
  simp only [String.length_append]
  have : (0 : Nat) < ("# Sheet " : String).length := by decide
  omega

theorem concat_sheetBlocks_pos (p : String × String) (rest : List (String × String)) :
    0 < (concatStrs ((p :: rest).map sheetBlock)).length := by
  rw [List.map_cons, concatStrs_cons, String.length_append]
  have := sheetBlock_length_pos p
  omega

theorem excelParseFromReader_of_results {wb : List SheetData}
    (h : excelResults wb ≠ []) :
    excelParseFromReader wb = .ok (concatStrs ((excelResults wb).map sheetBlock)) := by
  obtain ⟨p, rest, hpr⟩ := List.exists_cons_of_ne_nil h
  unfold excelParseFromReader extractSheets
  rw [if_neg h]
  have hpos := concat_sheetBlocks_pos p rest
  rw [hpr]
  simp only []
  rw [if_neg (by rw [← hpr] at hpos ⊢; omega)]

/-- C3 counterexample: a workbook with two sheets that both yield zero rows —
hence zero extractable characters on every sheet — does NOT fail with the
"no data found" error: extraction succeeds and returns the two bare sheet
headers. -/
theorem excel_empty_sheets_counterexample :
    (∀ p ∈ excelResults [⟨"A", some []⟩, ⟨"B", some []⟩], p.2 = "") ∧
    excelParseFromReader [⟨"A", some []⟩, ⟨"B", some []⟩] =
      .ok "# Sheet A\n\n---\n\n# Sheet B\n\n---\n\n" :=
  ⟨by decide, rfl⟩

/-- C3 (amended): spreadsheet extraction fails with the "no data found" error
exactly when no sheet's row set can be obtained (the sheet list is empty or
`f.Rows` fails on every sheet). When at least one sheet's rows are obtained
the call succeeds — even if every sheet yields zero extractable characters —
and the output consists of a "# Sheet <name>" block for every sheet whose
rows were obtained, empty sheets included. -/
theorem excel_no_data_found_iff (wb : List SheetData) :
    (excelParseFromReader wb = .error "no data found" ↔
      wb.all (fun sh => sh.rows.isNone) = true) ∧
    (wb.all (fun sh => sh.rows.isNone) = false →
      excelParseFromReader wb = .ok (concatStrs ((excelResults wb).map sheetBlock))) := by
  constructor
  · constructor
    · intro h
      by_contra hall
      have hne : excelResults wb ≠ [] := by
        rw [ne_eq, excelResults_eq_nil_iff]
        exact hall
      rw [excelParseFromReader_of_results hne] at h
      exact Except.noConfusion h
    · intro h
      have hnil : excelResults wb = [] := (excelResults_eq_nil_iff wb).mpr h
      unfold excelParseFromReader extractSheets
      rw [if_pos hnil]
  · intro h
    apply excelParseFromReader_of_results
    rw [ne_eq, excelResults_eq_nil_iff]
    intro hc
    rw [hc] at h
    exact Bool.noConfusion h

/-- C3 amended-claim witness: a workbook whose first sheet is unreadable and
whose second sheet has one row succeeds with both behaviours of the amended
claim; the empty workbook fails with "no data found". -/
theorem excel_no_data_found_iff_witness :
    excelParseFromReader [⟨"A", none⟩, ⟨"B", some [some ["x"]]⟩] =
      .ok (concatStrs ((excelResults [⟨"A", none⟩, ⟨"B", some [some ["x"]]⟩]).map sheetBlock)) ∧
    excelParseFromReader ([] : List SheetData) = .error "no data found" :=
  ⟨(excel_no_data_found_iff [⟨"A", none⟩, ⟨"B", some [some ["x"]]⟩]).2 (by decide),
    (excel_no_data_found_iff []).1.mpr (by decide)⟩

/-! ## Claim C4 -/

theorem goMapFold_not_mem : ∀ (sheets : List (String × String)) (m0 : String → Option String)
    (k : String), (∀ p ∈ sheets, p.1 ≠ k) →
    (sheets.foldl (fun m sc => goMapInsert m sc.1 sc.2) m0) k = m0 k
  | [], _, _, _ => rfl
  | sc :: rest, m0, k, h => by
    rw [List.foldl_cons]
    rw [goMapFold_not_mem rest _ k (fun p hp => h p (List.mem_cons_of_mem sc hp))]
    unfold goMapInsert
    rw [if_neg (Ne.symm (h sc (List.mem_cons_self sc rest)))]

theorem goMapFold_mem : ∀ (sheets : List (String × String)) (m0 : String → Option String)
    (p : String × String), p ∈ sheets → (sheets.map Prod.fst).Nodup →
    (sheets.foldl (fun m sc => goMapInsert m sc.1 sc.2) m0) p.1 = some p.2
  | [], _, p, hp, _ => absurd hp (List.not_mem_nil p)
  | sc :: rest, m0, p, hp, hnd => by
    rw [List.map_cons, List.nodup_cons] at hnd
    rw [List.foldl_cons]
    rcases List.mem_cons.mp hp with hp | hp
    · subst hp
      have hfresh : ∀ q ∈ rest, q.1 ≠ p.1 := by
        intro q hq hqe
        apply hnd.1
        rw [← hqe]
        exact List.mem_map_of_mem Prod.fst hq
      rw [goMapFold_not_mem rest _ p.1 hfresh]
      unfold goMapInsert
      rw [if_pos rfl]
    · exact goMapFold_mem rest _ p hp hnd.2

/-- C4 counterexample: the section-map operation's return value carries no
order, so the claim's "ordered mapping whose insertion order equals source
order" and "concatenating its values in map order yields the whole-text
output" are false. Two workbooks holding the same sheets in opposite source
orders receive the very same map from `ParseWithPages`, while their
whole-text outputs differ — hence the returned value cannot encode the source
order, and no concatenation determined by the returned map alone can equal
both whole-text outputs. -/
theorem excel_pages_unordered_counterexample :
    excelParseWithPages [⟨"A", some [some ["x"]]⟩, ⟨"B", some []⟩]
      = excelParseWithPages [⟨"B", some []⟩, ⟨"A", some [some ["x"]]⟩] ∧
    excelParseFromReader [⟨"A", some [some ["x"]]⟩, ⟨"B", some []⟩]
      ≠ excelParseFromReader [⟨"B", some []⟩, ⟨"A", some [some ["x"]]⟩] := by
  constructor
  · have e1 : excelParseWithPages [⟨"A", some [some ["x"]]⟩, ⟨"B", some []⟩]
        = .ok (fun q => if q = "B" then some "" else if q = "A" then some "x\n" else none) :=
      rfl
    have e2 : excelParseWithPages [⟨"B", some []⟩, ⟨"A", some [some ["x"]]⟩]
        = .ok (fun q => if q = "A" then some "x\n" else if q = "B" then some "" else none) :=
      rfl
    rw [e1, e2]
    apply congrArg Except.ok
    funext q
    by_cases hB : q = "B"
    · subst hB
      decide
    · by_cases hA : q = "A"
      · subst hA
        decide
      · simp [hA, hB]
  · intro he
    have h1 : excelParseFromReader [⟨"A", some [some ["x"]]⟩, ⟨"B", some []⟩]
        = .ok "# Sheet A\nx\n\n---\n\n# Sheet B\n\n---\n\n" := rfl
    have h2 : excelParseFromReader [⟨"B", some []⟩, ⟨"A", some [some ["x"]]⟩]
        = .ok "# Sheet B\n\n---\n\n# Sheet A\nx\n\n---\n\n" := rfl
    rw [h1, h2] at he
    simp only [Except.ok.injEq] at he
    exact absurd he (by decide)

/-- C4 (amended): `ExcelParser.ParseWithPages` returns the per-sheet contents
as an unordered map: when the surviving sheet names are distinct (as excelize
guarantees) the map sends each surviving sheet's name to that sheet's content
and every other key to nothing, and concatenating the per-sheet blocks
`# Sheet <name>\n<content>\n---\n\n` in workbook source order — an order read
off the workbook, not recoverable from the returned map — reproduces
`ExcelParser.ParseFromReader`'s output exactly. -/
theorem excel_pages_content_roundtrip (wb : List SheetData) (m : String → Option String)
    (hnd : (excelSheetNames wb).Nodup)
    (hm : excelParseWithPages wb = .ok m) :
    (∀ p ∈ excelResults wb, m p.1 = some p.2) ∧
    (∀ k : String, (∀ p ∈ excelResults wb, p.1 ≠ k) → m k = none) ∧
    excelParseFromReader wb = .ok (concatStrs ((excelResults wb).map sheetBlock)) := by
  have hndr : ((excelResults wb).map Prod.fst).Nodup := by
    rw [excelResults_names]
    exact hnd
  unfold excelParseWithPages extractSheets at hm
  by_cases hnil : excelResults wb = []
  · rw [if_pos hnil] at hm
    exact Except.noConfusion hm
  · rw [if_neg hnil] at hm
    simp only [Except.ok.injEq] at hm
    subst hm
    refine ⟨?_, ?_, excelParseFromReader_of_results hnil⟩
    · intro p hp
      exact goMapFold_mem (excelResults wb) _ p hp hndr
    · intro k hk
      exact goMapFold_not_mem (excelResults wb) _ k hk

/-- C4 witness: a two-sheet workbook (one data row, one empty sheet); the map
looks up sheet S1's content and the source-order concatenation equals the
whole-text output. -/
theorem excel_pages_content_roundtrip_witness :
    excelParseFromReader [⟨"S1", some [some ["a", "b"]]⟩, ⟨"S2", some []⟩]
      = .ok "# Sheet S1\na | b\n\n---\n\n# Sheet S2\n\n---\n\n" ∧
    (fun q => if q = "S2" then some "" else if q = "S1" then some "a | b\n" else none) "S1"
      = some "a | b\n" := by
  have h := excel_pages_content_roundtrip
    [⟨"S1", some [some ["a", "b"]]⟩, ⟨"S2", some []⟩]
    (fun q => if q = "S2" then some "" else if q = "S1" then some "a | b\n" else none)
    (by decide) rfl
  constructor
  · rw [h.2.2]
    rfl
  · exact h.1 ("S1", "a | b\n") (by decide)

/-! ## Claim C5 -/

/-- The slide-file test on an archive entry. -/
def isSlideEntry (e : PptxEntry) : Bool :=
  isSlideFile e.name

theorem pptxGo_matching : ∀ (n : Nat) (entries : List PptxEntry),
    pptxGo n entries = pptxGo n (entries.filter isSlideEntry)
  | _, [] => rfl
  | n, e :: rest => by
    by_cases hs : isSlideFile e.name = true
    · rw [List.filter_cons_of_pos (show isSlideEntry e = true from hs)]
      cases hsl : e.slide with
      | none =>
        simp only [pptxGo, hs, if_true, hsl]
        exact pptxGo_matching n rest
      | some sl =>
        simp only [pptxGo, hs, if_true, hsl]
        rw [pptxGo_matching (n + 1) rest]
    · rw [List.filter_cons_of_neg (show ¬isSlideEntry e = true from hs)]
      simp only [pptxGo, hs, Bool.false_eq_true, if_false]
      exact pptxGo_matching n rest

/-- C5: the presentation parser processes exactly the archive entries whose
name passes the slide filter (prefix `ppt/slides/slide`, suffix `.xml`, no
`Layout`/`Master` substring): its output on any archive equals its output on
the matching entries alone. Concretely, a package with `slide1.xml`,
`slide2.xml` and `slideLayout1.xml` under the slide path yields exactly the
two slide sections for `slide1.xml` and `slide2.xml` in encounter order, and
nothing from the layout entry — whatever its XML content `sL` is (decodable
or not). -/
theorem pptx_layout_excluded (s1 s2 : Slide) (sL : Option Slide) :
    (∀ (n : Nat) (entries : List PptxEntry),
      pptxGo n entries = pptxGo n (entries.filter isSlideEntry)) ∧
    pptxParseFromReader
        [⟨"ppt/slides/slide1.xml", some s1⟩, ⟨"ppt/slides/slide2.xml", some s2⟩,
         ⟨"ppt/slides/slideLayout1.xml", sL⟩] =
      .ok (mkSlideSection 1 s1 ++ mkSlideSection 2 s2) := by
  refine ⟨pptxGo_matching, ?_⟩
  have h1 : isSlideFile "ppt/slides/slide1.xml" = true := by decide
  have h2 : isSlideFile "ppt/slides/slide2.xml" = true := by decide
  have h3 : isSlideFile "ppt/slides/slideLayout1.xml" = false := by decide
  unfold pptxParseFromReader
  simp only [pptxGo, h1, h2, h3, if_true, if_false, Bool.false_eq_true, String.append_empty]

/-! ## Claim C9 -/

/-- The entries unaffected by the skip logic: non-slide entries, and slide
entries that opened, read and decoded successfully. -/
def pptxKeep (e : PptxEntry) : Bool :=
  !(isSlideFile e.name) || e.slide.isSome

theorem pptxGo_filter : ∀ (n : Nat) (entries : List PptxEntry),
    pptxGo n entries = pptxGo n (entries.filter pptxKeep)
  | _, [] => rfl
  | n, e :: rest => by
    by_cases hs : isSlideFile e.name = true
    · cases hsl : e.slide with
      | none =>
        have hk : pptxKeep e = false := by simp [pptxKeep, hs, hsl]
        rw [List.filter_cons_of_neg (by simp [hk])]
        simp only [pptxGo, hs, hsl, if_true]
        exact pptxGo_filter n rest
      | some sl =>
        have hk : pptxKeep e = true := by simp [pptxKeep, hsl]
        rw [List.filter_cons_of_pos hk]
        simp only [pptxGo, hs, hsl, if_true]
        rw [pptxGo_filter (n + 1) rest]
    · have hk : pptxKeep e = true := by simp [pptxKeep, hs]
      rw [List.filter_cons_of_pos hk]
      simp only [pptxGo, hs, Bool.false_eq_true, if_false]
      exact pptxGo_filter n rest

/-- A workbook with unreadable sheets and unreadable rows removed: sheets
whose `f.Rows` failed are dropped, and inside the surviving sheets the rows
whose `Columns()` failed are dropped. -/
def cleanWorkbook (wb : List SheetData) : List SheetData :=
  wb.filterMap (fun sh =>
    sh.rows.map (fun rows => ⟨sh.name, some ((rows.filterMap id).map some)⟩))

theorem sheetRowsText_clean : ∀ rows : List (Option (List String)),
    sheetRowsText ((rows.filterMap id).map some) = sheetRowsText rows
  | [] => rfl
  | none :: rest => sheetRowsText_clean rest
  | some row :: rest =>
    congrArg (fun x => (goJoin " | " row ++ "\n") ++ x) (sheetRowsText_clean rest)

theorem excelResults_clean : ∀ wb : List SheetData,
    excelResults (cleanWorkbook wb) = excelResults wb
  | [] => rfl
  | sh :: rest => by
    have ih := excelResults_clean rest
    unfold cleanWorkbook excelResults at ih ⊢
    cases hr : sh.rows with
    | none =>
      simp only [List.filterMap_cons, hr, Option.map_none']
      exact ih
    | some rows =>
      simp only [List.filterMap_cons, hr, Option.map_some']
      rw [sheetRowsText_clean rows, ih]

/-- C9: partial failures are absorbed locally. For presentations, an entry
whose open/read/decode failed is skipped and the output equals the output on
the archive with the broken entries removed; the call still succeeds. For
spreadsheets, unreadable sheets and unreadable rows are skipped — the output
equals the output on the cleaned workbook — and as long as one sheet's rows
are obtainable the call returns a successful result. -/
theorem partial_failures_absorbed (entries : List PptxEntry) (wb : List SheetData)
    (h : ∃ sh ∈ wb, sh.rows.isSome = true) :
    pptxParseFromReader entries = pptxParseFromReader (entries.filter pptxKeep) ∧
    (∃ out, pptxParseFromReader entries = .ok out) ∧
    excelParseFromReader wb = excelParseFromReader (cleanWorkbook wb) ∧
    (∃ out, excelParseFromReader wb = .ok out) := by
  refine ⟨?_, ⟨pptxGo 1 entries, rfl⟩, ?_, ?_⟩
  · unfold pptxParseFromReader
    rw [pptxGo_filter 1 entries]
  · unfold excelParseFromReader extractSheets
    rw [excelResults_clean wb]
  · have hne : excelResults wb ≠ [] := by
      rw [ne_eq, excelResults_eq_nil_iff, List.all_eq_true]
      intro hall
      obtain ⟨sh, hm, hsome⟩ := h
      have := hall sh hm
      rw [Option.isNone_iff_eq_none] at this
      rw [this] at hsome
      exact Bool.noConfusion hsome
    exact ⟨_, excelParseFromReader_of_results hne⟩

/-- C9 witness: an archive with one good and one undecodable slide, and a
workbook with one unreadable sheet and one sheet holding an unreadable row
and a good row. -/
theorem partial_failures_absorbed_witness :
    pptxParseFromReader
        [⟨"ppt/slides/slide1.xml", some ⟨⟨[]⟩⟩⟩, ⟨"ppt/slides/slide2.xml", none⟩] =
      pptxParseFromReader
        ([⟨"ppt/slides/slide1.xml", some ⟨⟨[]⟩⟩⟩,
          ⟨"ppt/slides/slide2.xml", none⟩].filter pptxKeep) ∧
    excelParseFromReader [⟨"A", none⟩, ⟨"B", some [none, some ["x"]]⟩] =
      excelParseFromReader (cleanWorkbook [⟨"A", none⟩, ⟨"B", some [none, some ["x"]]⟩]) ∧
    (∃ out, excelParseFromReader [⟨"A", none⟩, ⟨"B", some [none, some ["x"]]⟩] = .ok out) := by
  have h := partial_failures_absorbed
    [⟨"ppt/slides/slide1.xml", some ⟨⟨[]⟩⟩⟩, ⟨"ppt/slides/slide2.xml", none⟩]
    [⟨"A", none⟩, ⟨"B", some [none, some ["x"]]⟩]
    ⟨⟨"B", some [none, some ["x"]]⟩, by decide, rfl⟩
  exact ⟨h.1, h.2.2.1, h.2.2.2⟩

/-! ## Claim C8 -/

theorem pdfGo_enumFrom : ∀ (pages : List (Option (List String))) (i : Nat),
    pdfGo i pages = concatStrs ((List.enumFrom i pages).map (fun pr =>
      match pr.2 with
      | none => ""
      | some texts => pdfPageSection pr.1 texts))
  | [], _ => rfl
  | none :: rest, i => by
    simp only [pdfGo, List.enumFrom, List.map_cons, concatStrs_cons, String.empty_append]
    exact pdfGo_enumFrom rest (i + 1)
  | some texts :: rest, i => by
    simp only [pdfGo, List.enumFrom, List.map_cons, concatStrs_cons]
    rw [pdfGo_enumFrom rest (i + 1)]

/-- C8: PDF assembly equals the concatenation, over the pages enumerated in
order with their intrinsic 1-based indices, of: nothing for a null page (no
header), and the `pdfPageSection` block for a non-null page. In particular a
non-null page with no fragments still emits its header followed by a blank
line (`pdfPageSection i []` reduces to exactly that), and header numbers are
the intrinsic page indices even after null pages are skipped. -/
theorem pdf_page_assembly (pages : List (Option (List String))) :
    pdfParseFromReader pages = .ok (concatStrs ((List.enumFrom 1 pages).map (fun pr =>
      match pr.2 with
      | none => ""
      | some texts => pdfPageSection pr.1 texts))) ∧
    (∀ i : Nat, pdfPageSection i [] = "## Page " ++ toString i ++ "\n\n" ++ "" ++ "\n\n") :=
  ⟨congrArg Except.ok (pdfGo_enumFrom pages 1), fun _ => rfl⟩

/-! ## Claim C6 -/

/-- Structural positional lookup (the runes array indexing `runes[i]`). -/
def nthChar : List Char → Nat → Option Char
  | [], _ => none
  | c :: _, 0 => some c
  | _ :: rest, n + 1 => nthChar rest n

/-- Positional rendering of the CJK-deletion condition's "previous" part, with
`pj` the convention for index 0 (`false` on a whole string: `i > 0` fails). -/
def prevIsJpAtP (pj : Bool) (s : List Char) (i : Nat) : Bool :=
  match i with
  | 0 => pj
  | j + 1 =>
    match nthChar s j with
    | some p => isJapaneseChar p
    | none => false

/-- Positional rendering of the condition's "next" part: the character at
`i + 1` exists and is CJK. -/
def nextIsJpAt (s : List Char) (i : Nat) : Bool :=
  match nthChar s (i + 1) with
  | some n => isJapaneseChar n
  | none => false

/-- Positional CJK-space-removal with the index-0 convention `pj`. -/
def rmSpecGo (pj : Bool) (s : List Char) : List Char :=
  (List.range s.length).filterMap (fun i =>
    match nthChar s i with
    | none => none
    | some c =>
      if c == ' ' && prevIsJpAtP pj s i && nextIsJpAt s i then none else some c)

/-- The claim's wording of CJK space removal: position `i` is dropped iff it
holds a plain space whose immediate predecessor and immediate successor both
exist and are CJK (Hiragana, Katakana, or CJK Unified Ideographs). -/
def cjkSpaceRemovalSpec (s : List Char) : List Char :=
  rmSpecGo false s

theorem nthChar_cons_zero (c : Char) (rest : List Char) :
    nthChar (c :: rest) 0 = some c := rfl

theorem prevIsJpAtP_zero (pj : Bool) (s : List Char) :
    prevIsJpAtP pj s 0 = pj := rfl

theorem nextIsJpAt_cons_zero (c : Char) (rest : List Char) :
    nextIsJpAt (c :: rest) 0 = headIsJapanese rest := by
  cases rest <;> rfl

theorem rmSpecGo_cons (pj : Bool) (c : Char) (rest : List Char) :
    rmSpecGo pj (c :: rest)
      = (if c == ' ' && pj && headIsJapanese rest then [] else [c])
          ++ rmSpecGo (isJapaneseChar c) rest := by
  have hfun : ((fun i =>
      match nthChar (c :: rest) i with
      | none => none
      | some x =>
        if x == ' ' && prevIsJpAtP pj (c :: rest) i && nextIsJpAt (c :: rest) i then none
        else some x) ∘ Nat.succ)
      = (fun i =>
        match nthChar rest i with
        | none => none
        | some x =>
          if x == ' ' && prevIsJpAtP (isJapaneseChar c) rest i && nextIsJpAt rest i then none
          else some x) := by
    funext i
    cases i <;> rfl
  show (List.range (c :: rest).length).filterMap _ = _
  rw [List.length_cons, List.range_succ_eq_map, List.filterMap_cons, List.filterMap_map, hfun]
  simp only [nthChar_cons_zero, prevIsJpAtP_zero, nextIsJpAt_cons_zero]
  by_cases hcnd : (c == ' ' && pj && headIsJapanese rest) = true
  · rw [if_pos hcnd, if_pos hcnd, List.nil_append]
    rfl
  · rw [if_neg hcnd, if_neg hcnd, List.singleton_append]
    rfl

theorem removeJpSpacesGo_eq_spec : ∀ (pj : Bool) (s : List Char),
    removeJpSpacesGo pj s = rmSpecGo pj s
  | _, [] => rfl
  | pj, c :: rest => by
    rw [removeJpSpacesGo, rmSpecGo_cons]
    by_cases hcnd : (c == ' ' && pj && headIsJapanese rest) = true
    · rw [if_pos hcnd, if_pos hcnd, List.nil_append]
      exact removeJpSpacesGo_eq_spec (isJapaneseChar c) rest
    · rw [if_neg hcnd, if_neg hcnd, List.singleton_append]
      rw [removeJpSpacesGo_eq_spec (isJapaneseChar c) rest]

/-- C6: the CJK-space-removal step deletes exactly the plain spaces whose two
immediate neighbours are both CJK (positional characterization), and at the
whole-sanitizer level `sanitize("日本 語") = "日本語"` while `"日本 A"` is
unchanged. -/
theorem cjk_space_removal_characterization :
    (∀ s : List Char, removeJapaneseSpaces s = cjkSpaceRemovalSpec s) ∧
    sanitizeText "日本 語" = "日本語" ∧ sanitizeText "日本 A" = "日本 A" := by
  refine ⟨fun s => removeJpSpacesGo_eq_spec false s, ?_, ?_⟩
  · have h := sanitizeChars_eval (s := ("日本 語").data) (t := ("日本語").data)
      (by decide) (by decide)
    show (⟨sanitizeChars ("日本 語").data⟩ : String) = "日本語"
    rw [h]
    decide
  · have h := sanitizeChars_eval (s := ("日本 A").data) (t := ("日本 A").data)
      (by decide) (by decide)
    show (⟨sanitizeChars ("日本 A").data⟩ : String) = "日本 A"
    rw [h]
    decide

/-! ## Claim C1: infrastructure -/

/-- Characters that the first sanitizer pass can no longer contain right
before its collapse step: no replacement character, nothing in the full-width
range, no tab, no carriage return. -/
def cleanChar (c : Char) : Prop :=
  c ≠ '�' ∧ ¬(0xFF01 ≤ c.toNat ∧ c.toNat ≤ 0xFF5E) ∧ c ≠ '\t' ∧ c ≠ '\r'

theorem mem_replaceDoubleSpace : ∀ {s : List Char} {c : Char},
    c ∈ replaceDoubleSpace s → c ∈ s
  | [], _, h => by simpa [replaceDoubleSpace] using h
  | [d], _, h => by simpa [replaceDoubleSpace] using h
  | a :: b :: rest, c, h => by
    by_cases hab : a = ' ' ∧ b = ' '
    · simp only [replaceDoubleSpace] at h
      rw [if_pos hab] at h
      rcases List.mem_cons.mp h with h | h
      · subst h
        rw [hab.1]
        exact List.mem_cons_self _ _
      · exact List.mem_cons_of_mem _ (List.mem_cons_of_mem _ (mem_replaceDoubleSpace h))
    · simp only [replaceDoubleSpace] at h
      rw [if_neg hab] at h
      rcases List.mem_cons.mp h with h | h
      · subst h
        exact List.mem_cons_self _ _
      · exact List.mem_cons_of_mem _ (mem_replaceDoubleSpace h)

theorem mem_collapseSpaces (s : List Char) {c : Char} (h : c ∈ collapseSpaces s) : c ∈ s := by
  by_cases hd : hasDoubleSpace s = true
  · rw [collapseSpaces_step hd] at h
    exact mem_replaceDoubleSpace (mem_collapseSpaces (replaceDoubleSpace s) h)
  · rwa [collapseSpaces_eq_self (by simpa using hd)] at h
termination_by s.length
decreasing_by exact replaceDoubleSpace_length_lt s hd

theorem mem_removeJpSpacesGo : ∀ (pj : Bool) (s : List Char) {c : Char},
    c ∈ removeJpSpacesGo pj s → c ∈ s
  | _, [], _, h => by simpa [removeJpSpacesGo] using h
  | pj, a :: rest, c, h => by
    by_cases hc : (a == ' ' && pj && headIsJapanese rest) = true
    · simp only [removeJpSpacesGo] at h
      rw [if_pos hc] at h
      exact List.mem_cons_of_mem _ (mem_removeJpSpacesGo _ rest h)
    · simp only [removeJpSpacesGo] at h
      rw [if_neg hc] at h
      rcases List.mem_cons.mp h with h | h
      · subst h
        exact List.mem_cons_self _ _
      · exact List.mem_cons_of_mem _ (mem_removeJpSpacesGo _ rest h)

theorem mem_replaceCRLF : ∀ {s : List Char} {c : Char},
    c ∈ replaceCRLF s → c ∈ s ∨ c = '\n'
  | [], _, h => by simpa [replaceCRLF] using h
  | [d], c, h => by
    simp only [replaceCRLF] at h
    exact Or.inl h
  | a :: b :: rest, c, h => by
    by_cases hab : a = '\r' ∧ b = '\n'
    · simp only [replaceCRLF] at h
      rw [if_pos hab] at h
      rcases List.mem_cons.mp h with h | h
      · exact Or.inr h
      · rcases mem_replaceCRLF h with h | h
        · exact Or.inl (List.mem_cons_of_mem _ (List.mem_cons_of_mem _ h))
        · exact Or.inr h
    · simp only [replaceCRLF] at h
      rw [if_neg hab] at h
      rcases List.mem_cons.mp h with h | h
      · subst h
        exact Or.inl (List.mem_cons_self _ _)
      · rcases mem_replaceCRLF h with h | h
        · exact Or.inl (List.mem_cons_of_mem _ h)
        · exact Or.inr h

theorem mem_trimSpaceChars {s : List Char} {c : Char} (h : c ∈ trimSpaceChars s) : c ∈ s := by
  unfold trimSpaceChars at h
  rw [List.mem_reverse] at h
  have h2 := (List.dropWhile_sublist _).subset h
  rw [List.mem_reverse] at h2
  exact (List.dropWhile_sublist _).subset h2

theorem cleanChar_stage (s0 : List Char) :
    ∀ c ∈ replaceCR (replaceCRLF (replaceTabs (removeJapaneseSpaces
        (convertFullWidthToHalfWidth (removeReplacementChars s0))))), cleanChar c := by
  have h1 : ∀ c ∈ removeReplacementChars s0, c ≠ '�' := by
    intro c hcm
    have := (List.mem_filter.mp hcm).2
    simpa using this
  have h2 : ∀ c ∈ convertFullWidthToHalfWidth (removeReplacementChars s0),
      c ≠ '�' ∧ ¬(0xFF01 ≤ c.toNat ∧ c.toNat ≤ 0xFF5E) := by
    intro c hcm
    obtain ⟨d, hd, rfl⟩ := List.mem_map.mp hcm
    unfold foldFullWidthChar
    by_cases hfw : 0xFF01 ≤ d.toNat ∧ d.toNat ≤ 0xFF5E
    · rw [if_pos hfw]
      have htn : (Char.ofNat (d.toNat - 0xFF00 + 0x20)).toNat = d.toNat - 0xFF00 + 0x20 :=
        toNat_ofNat_valid (by omega)
      constructor
      · intro hEq
        have h1 := congrArg Char.toNat hEq
        rw [htn] at h1
        have h2 : ('�').toNat = 0xFFFD := rfl
        rw [h2] at h1
        omega
      · rw [htn]
        omega
    · rw [if_neg hfw]
      exact ⟨h1 d hd, hfw⟩
  have h3 : ∀ c ∈ removeJapaneseSpaces (convertFullWidthToHalfWidth (removeReplacementChars s0)),
      c ≠ '�' ∧ ¬(0xFF01 ≤ c.toNat ∧ c.toNat ≤ 0xFF5E) :=
    fun c hcm => h2 c (mem_removeJpSpacesGo false _ hcm)
  have h4 : ∀ c ∈ replaceTabs (removeJapaneseSpaces (convertFullWidthToHalfWidth
      (removeReplacementChars s0))),
      c ≠ '�' ∧ ¬(0xFF01 ≤ c.toNat ∧ c.toNat ≤ 0xFF5E) ∧ c ≠ '\t' := by
    intro c hcm
    obtain ⟨d, hd, rfl⟩ := List.mem_map.mp hcm
    by_cases hdt : d = '\t'
    · rw [if_pos hdt]
      refine ⟨by decide, by decide, by decide⟩
    · rw [if_neg hdt]
      exact ⟨(h3 d hd).1, (h3 d hd).2, hdt⟩
  have h5 : ∀ c ∈ replaceCRLF (replaceTabs (removeJapaneseSpaces (convertFullWidthToHalfWidth
      (removeReplacementChars s0)))),
      c ≠ '�' ∧ ¬(0xFF01 ≤ c.toNat ∧ c.toNat ≤ 0xFF5E) ∧ c ≠ '\t' := by
    intro c hcm
    rcases mem_replaceCRLF hcm with h | h
    · exact h4 c h
    · subst h
      refine ⟨by decide, by decide, by decide⟩
  intro c hcm
  obtain ⟨d, hd, rfl⟩ := List.mem_map.mp hcm
  by_cases hdr : d = '\r'
  · rw [if_pos hdr]
    refine ⟨by decide, by decide, by decide, by decide⟩
  · rw [if_neg hdr]
    exact ⟨(h5 d hd).1, (h5 d hd).2.1, (h5 d hd).2.2, hdr⟩

theorem hasDouble_cons_false {a : Char} {l : List Char}
    (h : hasDoubleSpace (a :: l) = false) : hasDoubleSpace l = false := by
  cases l with
  | nil => rfl
  | cons b t =>
    simp only [hasDoubleSpace, Bool.or_eq_false_iff] at h
    exact h.2

theorem hasDouble_append_left : ∀ {l1 l2 : List Char},
    hasDoubleSpace (l1 ++ l2) = false → hasDoubleSpace l1 = false
  | [], _, _ => rfl
  | [_], _, _ => rfl
  | a :: b :: t, l2, h => by
    simp only [List.cons_append] at h
    simp only [hasDoubleSpace, Bool.or_eq_false_iff] at h ⊢
    refine ⟨h.1, ?_⟩
    have := h.2
    rw [← List.cons_append] at this
    exact hasDouble_append_left this

theorem hasDouble_append_right : ∀ {l1 l2 : List Char},
    hasDoubleSpace (l1 ++ l2) = false → hasDoubleSpace l2 = false
  | [], _, h => h
  | _ :: t, l2, h => by
    rw [List.cons_append] at h
    exact hasDouble_append_right (hasDouble_cons_false h)

theorem hasDouble_collapseSpaces (s : List Char) :
    hasDoubleSpace (collapseSpaces s) = false := by
  by_cases hd : hasDoubleSpace s = true
  · rw [collapseSpaces_step hd]
    exact hasDouble_collapseSpaces (replaceDoubleSpace s)
  · rw [collapseSpaces_eq_self (by simpa using hd)]
    simpa using hd
termination_by s.length
decreasing_by exact replaceDoubleSpace_length_lt s hd

theorem dropWhile_head_not (p : Char → Bool) : ∀ (l : List Char) {c : Char},
    (l.dropWhile p).head? = some c → p c = false
  | [], _, h => by simp [List.dropWhile] at h
  | a :: t, c, h => by
    by_cases hpa : p a = true
    · rw [List.dropWhile_cons_of_pos hpa] at h
      exact dropWhile_head_not p t h
    · rw [List.dropWhile_cons_of_neg hpa] at h
      simp only [List.head?_cons, Option.some.injEq] at h
      rw [← h]
      simpa using hpa

theorem dropWhile_eq_self_of (p : Char → Bool) (l : List Char)
    (h : ∀ c, l.head? = some c → p c = false) : l.dropWhile p = l := by
  cases l with
  | nil => rfl
  | cons a t =>
    rw [List.dropWhile_cons_of_neg]
    have := h a rfl
    simp [this]

theorem trimSpaceChars_eq_self {x : List Char}
    (hh : ∀ c, x.head? = some c → isGoSpace c = false)
    (hl : ∀ c, x.getLast? = some c → isGoSpace c = false) :
    trimSpaceChars x = x := by
  unfold trimSpaceChars
  rw [dropWhile_eq_self_of _ _ hh]
  rw [dropWhile_eq_self_of _ _ (fun c hc => hl c (by rwa [List.head?_reverse] at hc))]
  exact List.reverse_reverse x

theorem trimSpaceChars_prefix (s : List Char) :
    ∃ r, s.dropWhile isGoSpace = trimSpaceChars s ++ r := by
  refine ⟨((s.dropWhile isGoSpace).reverse.takeWhile isGoSpace).reverse, ?_⟩
  have hcalc : trimSpaceChars s ++ ((s.dropWhile isGoSpace).reverse.takeWhile isGoSpace).reverse
      = s.dropWhile isGoSpace := by
    unfold trimSpaceChars
    rw [← List.reverse_append, List.takeWhile_append_dropWhile, List.reverse_reverse]
  exact hcalc.symm

theorem trimSpaceChars_decomp (s : List Char) :
    ∃ l r, s = l ++ trimSpaceChars s ++ r := by
  obtain ⟨r, hr⟩ := trimSpaceChars_prefix s
  refine ⟨s.takeWhile isGoSpace, r, ?_⟩
  conv_lhs => rw [← List.takeWhile_append_dropWhile (p := isGoSpace) (l := s)]
  rw [hr, List.append_assoc]

theorem hasDouble_trimSpaceChars {s : List Char} (h : hasDoubleSpace s = false) :
    hasDoubleSpace (trimSpaceChars s) = false := by
  obtain ⟨l, r, hdec⟩ := trimSpaceChars_decomp s
  rw [hdec] at h
  exact hasDouble_append_right (hasDouble_append_left h)

theorem trimSpaceChars_head_ok (s : List Char) {c : Char}
    (hc : (trimSpaceChars s).head? = some c) : isGoSpace c = false := by
  obtain ⟨r, hr⟩ := trimSpaceChars_prefix s
  cases ht : trimSpaceChars s with
  | nil =>
    rw [ht] at hc
    exact Option.noConfusion hc
  | cons a t =>
    rw [ht] at hc
    simp only [List.head?_cons, Option.some.injEq] at hc
    subst hc
    apply dropWhile_head_not isGoSpace s
    rw [hr, ht]
    rfl

theorem trimSpaceChars_last_ok (s : List Char) {c : Char}
    (hc : (trimSpaceChars s).getLast? = some c) : isGoSpace c = false := by
  unfold trimSpaceChars at hc
  rw [List.getLast?_reverse] at hc
  exact dropWhile_head_not isGoSpace _ hc

theorem removeJpSpacesGo_keep_head (pj : Bool) (d : Char) (rest : List Char)
    (hd : (d == ' ' && pj && headIsJapanese rest) = false) :
    removeJpSpacesGo pj (d :: rest) = d :: removeJpSpacesGo (isJapaneseChar d) rest := by
  simp only [removeJpSpacesGo]
  rw [if_neg (by simp [hd])]

theorem hasDouble_removeJpSpacesGo : ∀ (pj : Bool) (s : List Char),
    hasDoubleSpace s = false → hasDoubleSpace (removeJpSpacesGo pj s) = false
  | _, [], _ => rfl
  | pj, [c], _ => by
    show hasDoubleSpace (if (c == ' ' && pj && headIsJapanese []) = true
        then removeJpSpacesGo (isJapaneseChar c) []
        else c :: removeJpSpacesGo (isJapaneseChar c) []) = false
    rw [if_neg (by simp [headIsJapanese])]
    rfl
  | pj, c :: d :: rest, h => by
    have hcd : (c == ' ' && d == ' ') = false ∧ hasDoubleSpace (d :: rest) = false := by
      simpa only [hasDoubleSpace, Bool.or_eq_false_iff] using h
    show hasDoubleSpace (if (c == ' ' && pj && headIsJapanese (d :: rest)) = true
        then removeJpSpacesGo (isJapaneseChar c) (d :: rest)
        else c :: removeJpSpacesGo (isJapaneseChar c) (d :: rest)) = false
    have htail := hasDouble_removeJpSpacesGo (isJapaneseChar c) (d :: rest) hcd.2
    by_cases hdel : (c == ' ' && pj && headIsJapanese (d :: rest)) = true
    · rw [if_pos hdel]
      exact htail
    · rw [if_neg hdel]
      by_cases hdel2 : (d == ' ' && isJapaneseChar c && headIsJapanese rest) = true
      · have hand := hdel2
        rw [Bool.and_eq_true, Bool.and_eq_true] at hand
        have hcjp : isJapaneseChar c = true := hand.1.2
        have hcns : (c == ' ') = false := by
          cases hb : (c == ' ') with
          | false => rfl
          | true =>
            have hsp : c = ' ' := by simpa using hb
            rw [hsp] at hcjp
            exact absurd hcjp (by decide)
        cases hX : removeJpSpacesGo (isJapaneseChar c) (d :: rest) with
        | nil => rfl
        | cons x xs =>
          rw [hX] at htail
          simp only [hasDoubleSpace, hcns, Bool.false_and, Bool.false_or]
          exact htail
      · have hkeep := removeJpSpacesGo_keep_head (isJapaneseChar c) d rest
          (by simpa using hdel2)
        rw [hkeep] at htail
        rw [hkeep]
        simp only [hasDoubleSpace, Bool.or_eq_false_iff]
        exact ⟨hcd.1, htail⟩

theorem head?_removeJapaneseSpaces (s : List Char) :
    (removeJapaneseSpaces s).head? = s.head? := by
  cases s with
  | nil => rfl
  | cons c rest =>
    show (if (c == ' ' && false && headIsJapanese rest) = true
        then removeJpSpacesGo (isJapaneseChar c) rest
        else c :: removeJpSpacesGo (isJapaneseChar c) rest).head? = (c :: rest).head?
    rw [if_neg (by simp)]
    rfl

theorem getLast?_removeJpSpacesGo : ∀ (pj : Bool) (s : List Char),
    (removeJpSpacesGo pj s).getLast? = s.getLast?
  | _, [] => rfl
  | pj, [c] => by
    show (if (c == ' ' && pj && headIsJapanese []) = true
        then removeJpSpacesGo (isJapaneseChar c) []
        else c :: removeJpSpacesGo (isJapaneseChar c) []).getLast? = [c].getLast?
    rw [if_neg (by simp [headIsJapanese])]
    rfl
  | pj, c :: d :: rest => by
    show (if (c == ' ' && pj && headIsJapanese (d :: rest)) = true
        then removeJpSpacesGo (isJapaneseChar c) (d :: rest)
        else c :: removeJpSpacesGo (isJapaneseChar c) (d :: rest)).getLast?
      = (c :: d :: rest).getLast?
    have ih := getLast?_removeJpSpacesGo (isJapaneseChar c) (d :: rest)
    by_cases hdel : (c == ' ' && pj && headIsJapanese (d :: rest)) = true
    · rw [if_pos hdel, ih, List.getLast?_cons_cons]
    · rw [if_neg hdel]
      cases hX : removeJpSpacesGo (isJapaneseChar c) (d :: rest) with
      | nil =>
        rw [hX] at ih
        have hne : (d :: rest) ≠ [] := by simp
        have := List.getLast?_isSome.mpr hne
        rw [← ih] at this
        exact absurd this (by simp)
      | cons x xs =>
        rw [hX] at ih
        rw [List.getLast?_cons_cons, ih, List.getLast?_cons_cons]

theorem removeReplacement_eq_self_of_clean {l : List Char}
    (h : ∀ c ∈ l, cleanChar c) : removeReplacementChars l = l := by
  unfold removeReplacementChars
  rw [List.filter_eq_self]
  intro a ha
  simpa using (h a ha).1

theorem fold_eq_self_of_clean {l : List Char}
    (h : ∀ c ∈ l, cleanChar c) : convertFullWidthToHalfWidth l = l :=
  list_map_id_of _ l (fun c hc => by
    unfold foldFullWidthChar
    rw [if_neg (h c hc).2.1])

theorem replaceTabs_eq_self_of_clean {l : List Char}
    (h : ∀ c ∈ l, cleanChar c) : replaceTabs l = l :=
  list_map_id_of _ l (fun c hc => by rw [if_neg (h c hc).2.2.1])

theorem replaceCR_eq_self_of_clean {l : List Char}
    (h : ∀ c ∈ l, cleanChar c) : replaceCR l = l :=
  list_map_id_of _ l (fun c hc => by rw [if_neg (h c hc).2.2.2])

theorem replaceCRLF_eq_self_of : ∀ {l : List Char},
    (∀ c ∈ l, c ≠ '\r') → replaceCRLF l = l
  | [], _ => rfl
  | [_], _ => rfl
  | c :: d :: rest, h => by
    show (if c = '\r' ∧ d = '\n' then '\n' :: replaceCRLF rest
          else c :: replaceCRLF (d :: rest)) = c :: d :: rest
    rw [if_neg (fun hcd => (h c (List.mem_cons_self _ _)) hcd.1)]
    rw [replaceCRLF_eq_self_of (fun x hx => h x (List.mem_cons_of_mem c hx))]

/-- A rune list satisfying the fixed-point invariants established by one full
`sanitizeChars` pass is sent by a second pass to exactly one more CJK
space-removal round. -/
theorem sanitizeChars_of_invariants (out : List Char)
    (hclean : ∀ c ∈ out, cleanChar c)
    (hnd : hasDoubleSpace out = false)
    (hhead : ∀ c, out.head? = some c → isGoSpace c = false)
    (hlast : ∀ c, out.getLast? = some c → isGoSpace c = false) :
    sanitizeChars out = removeJapaneseSpaces out := by
  have hxclean : ∀ c ∈ removeJapaneseSpaces out, cleanChar c :=
    fun c hc => hclean c (mem_removeJpSpacesGo false out hc)
  unfold sanitizeChars
  rw [removeReplacement_eq_self_of_clean hclean,
    fold_eq_self_of_clean hclean,
    replaceTabs_eq_self_of_clean hxclean,
    replaceCRLF_eq_self_of (fun c hc => (hxclean c hc).2.2.2),
    replaceCR_eq_self_of_clean hxclean]
  have hx : hasDoubleSpace (removeJapaneseSpaces out) = false :=
    hasDouble_removeJpSpacesGo false out hnd
  rw [collapseSpaces_eq_self hx]
  apply trimSpaceChars_eq_self
  · intro c hc
    rw [head?_removeJapaneseSpaces out] at hc
    exact hhead c hc
  · intro c hc
    have hg : (removeJapaneseSpaces out).getLast? = out.getLast? :=
      getLast?_removeJpSpacesGo false out
    rw [hg] at hc
    exact hlast c hc

theorem sanitizeChars_twice (s0 : List Char) :
    sanitizeChars (sanitizeChars s0) = removeJapaneseSpaces (sanitizeChars s0) := by
  apply sanitizeChars_of_invariants
  · intro c hc
    unfold sanitizeChars at hc
    exact cleanChar_stage s0 c (mem_collapseSpaces _ (mem_trimSpaceChars hc))
  · unfold sanitizeChars
    exact hasDouble_trimSpaceChars (hasDouble_collapseSpaces _)
  · unfold sanitizeChars
    exact fun c hc => trimSpaceChars_head_ok _ hc
  · unfold sanitizeChars
    exact fun c hc => trimSpaceChars_last_ok _ hc

/-! ## Claim C1 -/

/-- C1 counterexample: `sanitizeText` is not idempotent. On `"日  日"` the
CJK-space-removal step keeps both spaces (each has a space, not a CJK rune,
on one side), the collapse step then merges them, so the first pass returns
`"日 日"`; a second pass removes the now CJK-flanked space and returns
`"日日"`. -/
theorem sanitize_not_idempotent :
    sanitizeText "日  日" = "日 日" ∧ sanitizeText "日 日" = "日日" ∧
    sanitizeText (sanitizeText "日  日") ≠ sanitizeText "日  日" := by
  have e1 : sanitizeText "日  日" = "日 日" := by
    have h := sanitizeChars_eval_one (s := ("日  日").data) (t := ("日  日").data)
      (u := ("日 日").data) (by decide) (by decide) (by decide) (by decide)
    show (⟨sanitizeChars ("日  日").data⟩ : String) = "日 日"
    rw [h]
    decide
  have e2 : sanitizeText "日 日" = "日日" := by
    have h := sanitizeChars_eval (s := ("日 日").data) (t := ("日日").data)
      (by decide) (by decide)
    show (⟨sanitizeChars ("日 日").data⟩ : String) = "日日"
    rw [h]
    decide
  refine ⟨e1, e2, ?_⟩
  rw [e1, e2]
  decide

/-- C1 (amended): `sanitizeText` is not idempotent in general; a second
application performs exactly one further CJK-space-removal pass:
`sanitizeText (sanitizeText s) = removeJapaneseSpaces (sanitizeText s)` for
every `s`. Idempotence therefore holds exactly on inputs whose sanitized form
contains no plain space flanked by CJK runes (which collapse or tab
replacement can create after the removal step already ran). -/
theorem sanitize_twice_eq_removeJapaneseSpaces (s : String) :
    sanitizeText (sanitizeText s) = ⟨removeJapaneseSpaces (sanitizeText s).data⟩ :=
  congrArg String.mk (sanitizeChars_twice s.data)
